import Mathlib

/-!
Verification development for the iocopy repository.

The copy engine (`cp` in iocopy.go), its event protocol, the `Start`
entry point, the task runner `Do` (task/task.go), and the concrete tasks
(CopyFileTask in copyfile.go, DownloadTask, HashTask) are embedded
shallowly.  Go goroutine scheduling (the `select` in `cp`) is made
explicit as a schedule: a list of selections, one per loop iteration,
choosing among the ticker firing, the context being done, and the
default read/write branch.  The reader and writer are scripted by
functions indexed by the number of calls made so far, mirroring the
`io.Reader` / `io.Writer` call protocol; machine integers (uint64,
uint) are modelled as Nat, `time.Duration` as Int (nanoseconds; only
its sign is consulted by the code), `error` values as String messages,
and the event channel as the list of events sent before `cp` returns,
with `closed = true` exactly when `cp` returned (its deferred
`close(ch)` ran).
-/

set_option maxHeartbeats 1000000

/-- DefaultBufSize in iocopy.go: 32 * 1024. -/
def DefaultBufSize : Nat := 32 * 1024

/-- DefaultInterval in iocopy.go: 500 ms as a time.Duration (nanoseconds). -/
def DefaultInterval : Int := 500000000

/-- The data of an EventWritten (iocopy.go): isTotalKnown, total,
prevCopied, written and the done flag. -/
structure EventWritten where
  isTotalKnown : Bool
  total : Nat
  prevCopied : Nat
  written : Nat
  done : Bool
deriving DecidableEq

/-- EventWritten.Copied: prevCopied + written. -/
def EventWritten.Copied (e : EventWritten) : Nat :=
  e.prevCopied + e.written

/-- ComputePercent (iocopy.go): returns 100 when done (even if total is 0),
0 when total is 0, else (prevCopied+written) / (total/100) in floating
point.  The Go code narrows the float64 quotient to float32; this Lean
version keeps the 64-bit Float since the claims only concern the exact
branches (100 and 0) which are identical in both widths. -/
def ComputePercent (total prevCopied written : Nat) (done : Bool) : Float :=
  if done then
    100
  else if total = 0 then
    0
  else
    Float.ofNat (prevCopied + written) / (Float.ofNat total / Float.ofNat 100)

/-- EventWritten.Percent (iocopy.go): ComputePercent on the event fields. -/
def EventWritten.Percent (e : EventWritten) : Float :=
  ComputePercent e.total e.prevCopied e.written e.done

/-- The events sent on the channel by `cp` (iocopy.go): EventWritten,
EventError, EventStop (wrapping an EventWritten with done = false) and
EventOK (wrapping an EventWritten with done = true). -/
inductive Event where
  | written (ew : EventWritten)
  | error (err : String)
  | stop (cause : String) (ew : EventWritten)
  | ok (ew : EventWritten)
deriving DecidableEq

/-- The wrapped EventWritten of an event, when there is one
(EventError carries none). -/
def Event.ewOf : Event → Option EventWritten
  | .written ew => some ew
  | .error _ => none
  | .stop _ ew => some ew
  | .ok ew => some ew

/-- Terminal events: EventStop, EventError, EventOK.  EventWritten is the
only non-terminal event. -/
def Event.isTerminal : Event → Bool
  | .written _ => false
  | _ => true

/-- Result of one call of src.Read(buf): the bytes read and the returned
error, which is nil, io.EOF, or some other (hard) error. -/
inductive ReadErr where
  | noError
  | eof
  | hard (msg : String)
deriving DecidableEq

/-- One scripted read result: data plus error, as Go `(n, err)` with
n = data.length. -/
structure ReadRes where
  data : List Nat
  err : ReadErr
deriving DecidableEq

/-- One selection of the `select` statement in `cp`: the ticker fired,
the context is done, or the default read/write branch ran. -/
inductive Sel where
  | tick
  | ctxDone
  | read
deriving DecidableEq

/-- The arguments of `cp` that stay fixed for the whole session:
the event fields, the sampling interval, the context error reported on
cancellation and the scripted reader/writer. `readF i` is the result of
the (i+1)-th src.Read call; `writeErrF i` is the error of the (i+1)-th
dst.Write call (none = full successful write). -/
structure CpCfg where
  isTotalKnown : Bool
  total : Nat
  prevCopied : Nat
  interval : Int
  ctxErr : String
  readF : Nat → ReadRes
  writeErrF : Nat → Option String

/-- The mutable state of the `cp` loop: `written` and `oldWritten`
(iocopy.go), plus the call counters of the scripted reader/writer and
the byte content accumulated in the sink so far. -/
structure CpSt where
  written : Nat
  oldWritten : Nat
  readCnt : Nat
  writeCnt : Nat
  sink : List Nat
deriving DecidableEq

/-- Result of running `cp` under a schedule: the events sent on the
channel in order, whether `cp` returned (and hence its deferred
close(ch) ran), and the final loop state. -/
structure RunRes where
  events : List Event
  closed : Bool
  st : CpSt
deriving DecidableEq

/-- The `cp` loop of iocopy.go, driven by an explicit schedule of
select choices.  Each schedule entry runs one loop iteration:
tick sends an EventWritten if the ticker is live (interval > 0) and
written changed since the last sample; ctxDone sends an EventStop and
returns; read performs src.Read, surfacing a non-EOF error as
EventError, a zero-byte read as EventOK, and otherwise writes the
chunk (a write error becomes EventError) and adds to written.
An exhausted schedule means the session is still running (e.g. blocked
in a read): no further events, channel not closed. -/
def cpRun (cfg : CpCfg) : List Sel → CpSt → RunRes
  | [], st => ⟨[], false, st⟩
  | .tick :: rest, st =>
    if 0 < cfg.interval ∧ st.written ≠ st.oldWritten then
      let r := cpRun cfg rest { st with oldWritten := st.written }
      ⟨.written ⟨cfg.isTotalKnown, cfg.total, cfg.prevCopied, st.written, false⟩ :: r.events,
        r.closed, r.st⟩
    else
      cpRun cfg rest st
  | .ctxDone :: _, st =>
    ⟨[.stop cfg.ctxErr ⟨cfg.isTotalKnown, cfg.total, cfg.prevCopied, st.written, false⟩],
      true, st⟩
  | .read :: rest, st =>
    let rr := cfg.readF st.readCnt
    match rr.err with
    | .hard msg => ⟨[.error msg], true, st⟩
    | _ =>
      if rr.data.length = 0 then
        ⟨[.ok ⟨cfg.isTotalKnown, cfg.total, cfg.prevCopied, st.written, true⟩], true, st⟩
      else
        match cfg.writeErrF st.writeCnt with
        | some msg => ⟨[.error msg], true, st⟩
        | none =>
          cpRun cfg rest
            { st with
              written := st.written + rr.data.length
              readCnt := st.readCnt + 1
              writeCnt := st.writeCnt + 1
              sink := st.sink ++ rr.data }

/-- Initial `cp` state over a sink that already holds `s0`. -/
def initSt (s0 : List Nat) : CpSt :=
  ⟨0, 0, 0, 0, s0⟩

/-- `Start` of iocopy.go (second definition, line 814): builds the
configuration `cp` is launched with.  The source launches the goroutine
as `go cp(ctx, dst, src, bufSize, interval, true, total, prevCopied, ch)`:
the isTotalKnown parameter is replaced by the literal `true`. -/
def Start (isTotalKnown : Bool) (total prevCopied : Nat) (interval : Int)
    (ctxErr : String) (readF : Nat → ReadRes) (writeErrF : Nat → Option String) : CpCfg :=
  { isTotalKnown := true
    total := total
    prevCopied := prevCopied
    interval := interval
    ctxErr := ctxErr
    readF := readF
    writeErrF := writeErrF }

/-- A whole session as launched by `Start`: run the `cp` goroutine under
the given schedule from the initial state. -/
def StartRun (isTotalKnown : Bool) (total prevCopied : Nat) (interval : Int)
    (ctxErr : String) (readF : Nat → ReadRes) (writeErrF : Nat → Option String)
    (s0 : List Nat) (sched : List Sel) : RunRes :=
  cpRun (Start isTotalKnown total prevCopied interval ctxErr readF writeErrF) sched (initSt s0)

/-- The buffer-size normalization at the top of `cp`:
`if bufSize == 0 { bufSize = DefaultBufSize }`. -/
def effectiveBufSize (bufSize : Nat) : Nat :=
  if bufSize = 0 then DefaultBufSize else bufSize

/-- The deterministic reader over a byte list: the (i+1)-th Read call
into a buffer of size bufSize returns the next min(bufSize, remaining)
bytes, and (0, io.EOF) once the source is exhausted. -/
def srcReadF (bufSize : Nat) (bytes : List Nat) (i : Nat) : ReadRes :=
  let chunk := (bytes.drop (i * bufSize)).take bufSize
  if chunk.isEmpty then ⟨[], .eof⟩ else ⟨chunk, .noError⟩

/-- Step equation: empty schedule, session still running. -/
theorem cpRun_nil (cfg : CpCfg) (st : CpSt) :
    cpRun cfg [] st = ⟨[], false, st⟩ := rfl

/-- Step equation: the ticker fires and written changed since the last
sample, so an EventWritten is sent. -/
theorem cpRun_tick_fire (cfg : CpCfg) (rest : List Sel) (st : CpSt)
    (h : 0 < cfg.interval ∧ st.written ≠ st.oldWritten) :
    cpRun cfg (.tick :: rest) st =
      ⟨.written ⟨cfg.isTotalKnown, cfg.total, cfg.prevCopied, st.written, false⟩ ::
          (cpRun cfg rest { st with oldWritten := st.written }).events,
        (cpRun cfg rest { st with oldWritten := st.written }).closed,
        (cpRun cfg rest { st with oldWritten := st.written }).st⟩ := by
  simp [cpRun, h]

/-- Step equation: the ticker branch was chosen but either the ticker is
stopped or written did not change; nothing is sent. -/
theorem cpRun_tick_skip (cfg : CpCfg) (rest : List Sel) (st : CpSt)
    (h : ¬(0 < cfg.interval ∧ st.written ≠ st.oldWritten)) :
    cpRun cfg (.tick :: rest) st = cpRun cfg rest st := by
  simp [cpRun, h]

/-- Step equation: the context is done; an EventStop is sent and `cp`
returns. -/
theorem cpRun_ctxDone (cfg : CpCfg) (rest : List Sel) (st : CpSt) :
    cpRun cfg (.ctxDone :: rest) st =
      ⟨[.stop cfg.ctxErr ⟨cfg.isTotalKnown, cfg.total, cfg.prevCopied, st.written, false⟩],
        true, st⟩ := rfl

/-- Step equation: src.Read returned a non-EOF error; an EventError is
sent and `cp` returns. -/
theorem cpRun_read_hard (cfg : CpCfg) (rest : List Sel) (st : CpSt) (msg : String)
    (hrr : (cfg.readF st.readCnt).err = .hard msg) :
    cpRun cfg (.read :: rest) st = ⟨[.error msg], true, st⟩ := by
  simp [cpRun, hrr]

/-- Step equation: src.Read returned 0 bytes with no hard error; an
EventOK is sent and `cp` returns. -/
theorem cpRun_read_done (cfg : CpCfg) (rest : List Sel) (st : CpSt)
    (hrr : ∀ msg, (cfg.readF st.readCnt).err ≠ .hard msg)
    (hn : (cfg.readF st.readCnt).data.length = 0) :
    cpRun cfg (.read :: rest) st =
      ⟨[.ok ⟨cfg.isTotalKnown, cfg.total, cfg.prevCopied, st.written, true⟩], true, st⟩ := by
  cases h : (cfg.readF st.readCnt).err with
  | hard msg => exact absurd h (hrr msg)
  | noError => simp [cpRun, h, hn]
  | eof => simp [cpRun, h, hn]

/-- Step equation: src.Read returned data but dst.Write failed; an
EventError is sent and `cp` returns. -/
theorem cpRun_read_writeFail (cfg : CpCfg) (rest : List Sel) (st : CpSt) (msg : String)
    (hrr : ∀ m, (cfg.readF st.readCnt).err ≠ .hard m)
    (hn : (cfg.readF st.readCnt).data.length ≠ 0)
    (hw : cfg.writeErrF st.writeCnt = some msg) :
    cpRun cfg (.read :: rest) st = ⟨[.error msg], true, st⟩ := by
  cases h : (cfg.readF st.readCnt).err with
  | hard m => exact absurd h (hrr m)
  | noError => simp [cpRun, h, hn, hw]
  | eof => simp [cpRun, h, hn, hw]

/-- Step equation: src.Read returned data and dst.Write succeeded; the
loop continues with written and the sink advanced by the chunk. -/
theorem cpRun_read_step (cfg : CpCfg) (rest : List Sel) (st : CpSt)
    (hrr : ∀ m, (cfg.readF st.readCnt).err ≠ .hard m)
    (hn : (cfg.readF st.readCnt).data.length ≠ 0)
    (hw : cfg.writeErrF st.writeCnt = none) :
    cpRun cfg (.read :: rest) st =
      cpRun cfg rest
        { st with
          written := st.written + (cfg.readF st.readCnt).data.length
          readCnt := st.readCnt + 1
          writeCnt := st.writeCnt + 1
          sink := st.sink ++ (cfg.readF st.readCnt).data } := by
  cases h : (cfg.readF st.readCnt).err with
  | hard m => exact absurd h (hrr m)
  | noError => simp [cpRun, h, hn, hw]
  | eof => simp [cpRun, h, hn, hw]

/-- Structure of every `cp` run: when the channel got closed, the event
list is some EventWritten events followed by exactly one terminal
event; when the channel is still open, only EventWritten events were
sent so far. -/
theorem cpRun_shape (cfg : CpCfg) (sched : List Sel) (st : CpSt) :
    ((cpRun cfg sched st).closed = true →
      ∃ pre e, (cpRun cfg sched st).events = pre ++ [e] ∧ e.isTerminal = true ∧
        ∀ x ∈ pre, ∃ ew, x = Event.written ew) ∧
    ((cpRun cfg sched st).closed = false →
      ∀ x ∈ (cpRun cfg sched st).events, ∃ ew, x = Event.written ew) := by
  induction sched generalizing st with
  | nil =>
    rw [cpRun_nil]
    exact ⟨fun hc => by simp at hc, fun _ => by simp⟩
  | cons s rest ih =>
    cases s with
    | tick =>
      by_cases h : 0 < cfg.interval ∧ st.written ≠ st.oldWritten
      · rw [cpRun_tick_fire cfg rest st h]
        obtain ⟨ih1, ih2⟩ := ih { st with oldWritten := st.written }
        constructor
        · intro hc
          obtain ⟨pre, e, hev, hterm, hpre⟩ := ih1 hc
          refine ⟨Event.written ⟨cfg.isTotalKnown, cfg.total, cfg.prevCopied, st.written, false⟩ :: pre,
            e, by simp [hev], hterm, ?_⟩
          intro x hx
          rcases List.mem_cons.mp hx with hx | hx
          · exact ⟨_, hx⟩
          · exact hpre x hx
        · intro hc x hx
          rcases List.mem_cons.mp hx with hx | hx
          · exact ⟨_, hx⟩
          · exact ih2 hc x hx
      · rw [cpRun_tick_skip cfg rest st h]
        exact ih st
    | ctxDone =>
      rw [cpRun_ctxDone]
      exact ⟨fun _ => ⟨[], _, rfl, rfl, by simp⟩, fun hc => by simp at hc⟩
    | read =>
      cases hrr : (cfg.readF st.readCnt).err with
      | hard msg =>
        rw [cpRun_read_hard cfg rest st msg hrr]
        exact ⟨fun _ => ⟨[], _, rfl, rfl, by simp⟩, fun hc => by simp at hc⟩
      | noError =>
        by_cases hn : (cfg.readF st.readCnt).data.length = 0
        · rw [cpRun_read_done cfg rest st (by simp [hrr]) hn]
          exact ⟨fun _ => ⟨[], _, rfl, rfl, by simp⟩, fun hc => by simp at hc⟩
        · cases hw : cfg.writeErrF st.writeCnt with
          | some msg =>
            rw [cpRun_read_writeFail cfg rest st msg (by simp [hrr]) hn hw]
            exact ⟨fun _ => ⟨[], _, rfl, rfl, by simp⟩, fun hc => by simp at hc⟩
          | none =>
            rw [cpRun_read_step cfg rest st (by simp [hrr]) hn hw]
            exact ih _
      | eof =>
        by_cases hn : (cfg.readF st.readCnt).data.length = 0
        · rw [cpRun_read_done cfg rest st (by simp [hrr]) hn]
          exact ⟨fun _ => ⟨[], _, rfl, rfl, by simp⟩, fun hc => by simp at hc⟩
        · cases hw : cfg.writeErrF st.writeCnt with
          | some msg =>
            rw [cpRun_read_writeFail cfg rest st msg (by simp [hrr]) hn hw]
            exact ⟨fun _ => ⟨[], _, rfl, rfl, by simp⟩, fun hc => by simp at hc⟩
          | none =>
            rw [cpRun_read_step cfg rest st (by simp [hrr]) hn hw]
            exact ih _

/-- Every event of a `cp` run that wraps an EventWritten carries the
session constants: the isTotalKnown flag, total and prevCopied that
`cp` was launched with; its done flag is true exactly when the event is
the EventOK. -/
theorem cpRun_fields (cfg : CpCfg) (sched : List Sel) (st : CpSt) :
    ∀ e ∈ (cpRun cfg sched st).events, ∀ ew, e.ewOf = some ew →
      ew.isTotalKnown = cfg.isTotalKnown ∧ ew.total = cfg.total ∧
        ew.prevCopied = cfg.prevCopied ∧ (ew.done = true ↔ e = Event.ok ew) := by
  induction sched generalizing st with
  | nil =>
    rw [cpRun_nil]
    intro e he
    simp at he
  | cons s rest ih =>
    cases s with
    | tick =>
      by_cases h : 0 < cfg.interval ∧ st.written ≠ st.oldWritten
      · rw [cpRun_tick_fire cfg rest st h]
        intro e he ew hew
        rcases List.mem_cons.mp he with he | he
        · subst he
          simp only [Event.ewOf, Option.some.injEq] at hew
          subst hew
          exact ⟨rfl, rfl, rfl, by simp⟩
        · exact ih _ e he ew hew
      · rw [cpRun_tick_skip cfg rest st h]
        exact ih st
    | ctxDone =>
      rw [cpRun_ctxDone]
      intro e he ew hew
      rw [List.mem_singleton] at he
      subst he
      simp only [Event.ewOf, Option.some.injEq] at hew
      subst hew
      exact ⟨rfl, rfl, rfl, by simp⟩
    | read =>
      cases hrr : (cfg.readF st.readCnt).err with
      | hard msg =>
        rw [cpRun_read_hard cfg rest st msg hrr]
        intro e he ew hew
        rw [List.mem_singleton] at he
        subst he
        simp [Event.ewOf] at hew
      | noError =>
        by_cases hn : (cfg.readF st.readCnt).data.length = 0
        · rw [cpRun_read_done cfg rest st (by simp [hrr]) hn]
          intro e he ew hew
          rw [List.mem_singleton] at he
          subst he
          simp only [Event.ewOf, Option.some.injEq] at hew
          subst hew
          exact ⟨rfl, rfl, rfl, by simp⟩
        · cases hw : cfg.writeErrF st.writeCnt with
          | some msg =>
            rw [cpRun_read_writeFail cfg rest st msg (by simp [hrr]) hn hw]
            intro e he ew hew
            rw [List.mem_singleton] at he
            subst he
            simp [Event.ewOf] at hew
          | none =>
            rw [cpRun_read_step cfg rest st (by simp [hrr]) hn hw]
            exact ih _
      | eof =>
        by_cases hn : (cfg.readF st.readCnt).data.length = 0
        · rw [cpRun_read_done cfg rest st (by simp [hrr]) hn]
          intro e he ew hew
          rw [List.mem_singleton] at he
          subst he
          simp only [Event.ewOf, Option.some.injEq] at hew
          subst hew
          exact ⟨rfl, rfl, rfl, by simp⟩
        · cases hw : cfg.writeErrF st.writeCnt with
          | some msg =>
            rw [cpRun_read_writeFail cfg rest st msg (by simp [hrr]) hn hw]
            intro e he ew hew
            rw [List.mem_singleton] at he
            subst he
            simp [Event.ewOf] at hew
          | none =>
            rw [cpRun_read_step cfg rest st (by simp [hrr]) hn hw]
            exact ih _

/-- The EventWritten wrapped in a terminal EventStop or EventOK of a
`cp` run records the final value of `written`, the one the loop state
holds when `cp` returns. -/
theorem cpRun_terminal_written (cfg : CpCfg) (sched : List Sel) (st : CpSt) :
    (∀ cause ew, Event.stop cause ew ∈ (cpRun cfg sched st).events →
        ew.written = (cpRun cfg sched st).st.written) ∧
    (∀ ew, Event.ok ew ∈ (cpRun cfg sched st).events →
        ew.written = (cpRun cfg sched st).st.written) := by
  induction sched generalizing st with
  | nil =>
    rw [cpRun_nil]
    exact ⟨fun _ _ h => by simp at h, fun _ h => by simp at h⟩
  | cons s rest ih =>
    cases s with
    | tick =>
      by_cases h : 0 < cfg.interval ∧ st.written ≠ st.oldWritten
      · rw [cpRun_tick_fire cfg rest st h]
        obtain ⟨ih1, ih2⟩ := ih { st with oldWritten := st.written }
        constructor
        · intro cause ew hmem
          rcases List.mem_cons.mp hmem with hx | hx
          · exact absurd hx (by simp)
          · exact ih1 cause ew hx
        · intro ew hmem
          rcases List.mem_cons.mp hmem with hx | hx
          · exact absurd hx (by simp)
          · exact ih2 ew hx
      · rw [cpRun_tick_skip cfg rest st h]
        exact ih st
    | ctxDone =>
      rw [cpRun_ctxDone]
      constructor
      · intro cause ew hmem
        rw [List.mem_singleton] at hmem
        rw [Event.stop.injEq] at hmem
        rw [hmem.2]
      · intro ew hmem
        simp at hmem
    | read =>
      cases hrr : (cfg.readF st.readCnt).err with
      | hard msg =>
        rw [cpRun_read_hard cfg rest st msg hrr]
        exact ⟨fun _ _ h => by simp at h, fun _ h => by simp at h⟩
      | noError =>
        by_cases hn : (cfg.readF st.readCnt).data.length = 0
        · rw [cpRun_read_done cfg rest st (by simp [hrr]) hn]
          constructor
          · intro cause ew hmem
            simp at hmem
          · intro ew hmem
            rw [List.mem_singleton] at hmem
            rw [Event.ok.injEq] at hmem
            rw [hmem]
        · cases hw : cfg.writeErrF st.writeCnt with
          | some msg =>
            rw [cpRun_read_writeFail cfg rest st msg (by simp [hrr]) hn hw]
            exact ⟨fun _ _ h => by simp at h, fun _ h => by simp at h⟩
          | none =>
            rw [cpRun_read_step cfg rest st (by simp [hrr]) hn hw]
            exact ih _
      | eof =>
        by_cases hn : (cfg.readF st.readCnt).data.length = 0
        · rw [cpRun_read_done cfg rest st (by simp [hrr]) hn]
          constructor
          · intro cause ew hmem
            simp at hmem
          · intro ew hmem
            rw [List.mem_singleton] at hmem
            rw [Event.ok.injEq] at hmem
            rw [hmem]
        · cases hw : cfg.writeErrF st.writeCnt with
          | some msg =>
            rw [cpRun_read_writeFail cfg rest st msg (by simp [hrr]) hn hw]
            exact ⟨fun _ _ h => by simp at h, fun _ h => by simp at h⟩
          | none =>
            rw [cpRun_read_step cfg rest st (by simp [hrr]) hn hw]
            exact ih _

/-- With the ticker stopped (interval less than or equal to 0), a `cp`
run sends only terminal events, hence at most one event. -/
theorem cpRun_noticker (cfg : CpCfg) (sched : List Sel) (st : CpSt)
    (hint : cfg.interval ≤ 0) :
    (∀ e ∈ (cpRun cfg sched st).events, e.isTerminal = true) ∧
      (cpRun cfg sched st).events.length ≤ 1 := by
  induction sched generalizing st with
  | nil =>
    rw [cpRun_nil]
    exact ⟨fun _ h => by simp at h, by simp⟩
  | cons s rest ih =>
    cases s with
    | tick =>
      rw [cpRun_tick_skip cfg rest st (fun hh => absurd hh.1 (by omega))]
      exact ih st
    | ctxDone =>
      rw [cpRun_ctxDone]
      refine ⟨?_, by simp⟩
      intro e he
      rw [List.mem_singleton] at he
      subst he
      rfl
    | read =>
      cases hrr : (cfg.readF st.readCnt).err with
      | hard msg =>
        rw [cpRun_read_hard cfg rest st msg hrr]
        refine ⟨?_, by simp⟩
        intro e he
        rw [List.mem_singleton] at he
        subst he
        rfl
      | noError =>
        by_cases hn : (cfg.readF st.readCnt).data.length = 0
        · rw [cpRun_read_done cfg rest st (by simp [hrr]) hn]
          refine ⟨?_, by simp⟩
          intro e he
          rw [List.mem_singleton] at he
          subst he
          rfl
        · cases hw : cfg.writeErrF st.writeCnt with
          | some msg =>
            rw [cpRun_read_writeFail cfg rest st msg (by simp [hrr]) hn hw]
            refine ⟨?_, by simp⟩
            intro e he
            rw [List.mem_singleton] at he
            subst he
            rfl
          | none =>
            rw [cpRun_read_step cfg rest st (by simp [hrr]) hn hw]
            exact ih _
      | eof =>
        by_cases hn : (cfg.readF st.readCnt).data.length = 0
        · rw [cpRun_read_done cfg rest st (by simp [hrr]) hn]
          refine ⟨?_, by simp⟩
          intro e he
          rw [List.mem_singleton] at he
          subst he
          rfl
        · cases hw : cfg.writeErrF st.writeCnt with
          | some msg =>
            rw [cpRun_read_writeFail cfg rest st msg (by simp [hrr]) hn hw]
            refine ⟨?_, by simp⟩
            intro e he
            rw [List.mem_singleton] at he
            subst he
            rfl
          | none =>
            rw [cpRun_read_step cfg rest st (by simp [hrr]) hn hw]
            exact ih _

/-- Conservation induction: running `cp` over the deterministic reader
of a byte list with an always-succeeding writer and no cancellation,
from a state that has already moved `readCnt` buffers, ends (if it
ends) in an EventOK carrying the full source length, with the sink
holding its original content followed by the full source. -/
theorem cpRun_conservation_aux (cfg : CpCfg) (bytes s0 : List Nat) (B : Nat)
    (hB : 0 < B)
    (hread : cfg.readF = srcReadF B bytes)
    (hwrite : cfg.writeErrF = fun _ => none)
    (sched : List Sel) :
    Sel.ctxDone ∉ sched → ∀ st : CpSt,
      st.sink = s0 ++ bytes.take (st.readCnt * B) →
      st.written = (bytes.take (st.readCnt * B)).length →
      (cpRun cfg sched st).closed = true →
      (∃ pre, (cpRun cfg sched st).events =
          pre ++ [Event.ok ⟨cfg.isTotalKnown, cfg.total, cfg.prevCopied, bytes.length, true⟩]) ∧
        (cpRun cfg sched st).st.sink = s0 ++ bytes := by
  induction sched with
  | nil =>
    intro _ st _ _ hc
    rw [cpRun_nil] at hc
    simp at hc
  | cons s rest ih =>
    intro hnotin st hsink hwr hc
    have hnotin' : Sel.ctxDone ∉ rest := by
      intro hmem
      exact hnotin (List.mem_cons_of_mem _ hmem)
    cases s with
    | tick =>
      by_cases h : 0 < cfg.interval ∧ st.written ≠ st.oldWritten
      · rw [cpRun_tick_fire cfg rest st h] at hc ⊢
        obtain ⟨⟨pre, hev⟩, hsink'⟩ :=
          ih hnotin' { st with oldWritten := st.written } hsink hwr hc
        exact ⟨⟨Event.written ⟨cfg.isTotalKnown, cfg.total, cfg.prevCopied, st.written, false⟩ :: pre,
          by simp [hev]⟩, hsink'⟩
      · rw [cpRun_tick_skip cfg rest st h] at hc ⊢
        exact ih hnotin' st hsink hwr hc
    | ctxDone =>
      exact absurd (List.mem_cons_self _ _) hnotin
    | read =>
      by_cases hchunk : ((bytes.drop (st.readCnt * B)).take B).isEmpty
      · have h1 : cfg.readF st.readCnt = ⟨[], .eof⟩ := by
          rw [hread]
          simp [srcReadF, hchunk]
        have hdrop : bytes.drop (st.readCnt * B) = [] := by
          rcases List.take_eq_nil_iff.mp (List.isEmpty_iff.mp hchunk) with h2 | h2
          · omega
          · exact h2
        have hlen : bytes.length ≤ st.readCnt * B := List.drop_eq_nil_iff.mp hdrop
        have htake : bytes.take (st.readCnt * B) = bytes := List.take_of_length_le hlen
        rw [cpRun_read_done cfg rest st (by simp [h1]) (by simp [h1])] at hc ⊢
        constructor
        · refine ⟨[], ?_⟩
          rw [hwr, htake]
          simp
        · rw [hsink, htake]
      · have h1 : cfg.readF st.readCnt = ⟨(bytes.drop (st.readCnt * B)).take B, .noError⟩ := by
          rw [hread]
          simp [srcReadF, hchunk]
        have hne : (bytes.drop (st.readCnt * B)).take B ≠ [] := by
          intro h2
          rw [h2] at hchunk
          simp at hchunk
        have hn : (cfg.readF st.readCnt).data.length ≠ 0 := by
          rw [h1]
          intro h2
          exact hne (List.length_eq_zero.mp h2)
        rw [cpRun_read_step cfg rest st (by simp [h1]) hn (by rw [hwrite])] at hc ⊢
        refine ih hnotin' _ ?_ ?_ hc
        · show st.sink ++ (cfg.readF st.readCnt).data = s0 ++ bytes.take ((st.readCnt + 1) * B)
          rw [h1, hsink, Nat.succ_mul, List.take_add, List.append_assoc]
        · show st.written + (cfg.readF st.readCnt).data.length =
            (bytes.take ((st.readCnt + 1) * B)).length
          rw [h1, hwr, Nat.succ_mul, List.take_add, List.length_append]

/-- Claim C1: for every source of N bytes and every sink, a copy
session (cp, started via Start) that runs to completion with no
cancellation and no read/write error emits a terminal OK event whose
written value equals N, and the sequence of bytes written to the sink
equals the sequence of bytes of the source. -/
theorem claim_C1_conservation (bytes s0 : List Nat) (bufSize : Nat)
    (isTotalKnown : Bool) (total prevCopied : Nat) (interval : Int)
    (ctxErr : String) (sched : List Sel)
    (hnc : Sel.ctxDone ∉ sched)
    (hdone : (StartRun isTotalKnown total prevCopied interval ctxErr
        (srcReadF (effectiveBufSize bufSize) bytes) (fun _ => none) s0 sched).closed = true) :
    (∃ pre, (StartRun isTotalKnown total prevCopied interval ctxErr
        (srcReadF (effectiveBufSize bufSize) bytes) (fun _ => none) s0 sched).events =
        pre ++ [Event.ok ⟨true, total, prevCopied, bytes.length, true⟩]) ∧
      (StartRun isTotalKnown total prevCopied interval ctxErr
        (srcReadF (effectiveBufSize bufSize) bytes) (fun _ => none) s0 sched).st.sink =
        s0 ++ bytes := by
  have hB : 0 < effectiveBufSize bufSize := by
    unfold effectiveBufSize DefaultBufSize
    split <;> omega
  exact cpRun_conservation_aux
    (Start isTotalKnown total prevCopied interval ctxErr
      (srcReadF (effectiveBufSize bufSize) bytes) (fun _ => none))
    bytes s0 (effectiveBufSize bufSize) hB rfl rfl sched hnc (initSt s0)
    (by simp [initSt]) (by simp [initSt]) hdone

/-- Witness for C1 at a concrete input: source [1, 2, 3], buffer size
2, an initial sink [9] and a schedule of three reads. -/
theorem claim_C1_witness :
    (∃ pre, (StartRun false 3 0 0 "context canceled"
        (srcReadF (effectiveBufSize 2) [1, 2, 3]) (fun _ => none) [9]
        [.read, .read, .read]).events = pre ++ [Event.ok ⟨true, 3, 0, 3, true⟩]) ∧
      (StartRun false 3 0 0 "context canceled"
        (srcReadF (effectiveBufSize 2) [1, 2, 3]) (fun _ => none) [9]
        [.read, .read, .read]).st.sink = [9] ++ [1, 2, 3] :=
  claim_C1_conservation [1, 2, 3] [9] 2 false 3 0 0 "context canceled"
    [.read, .read, .read] (by decide) (by decide)

/-- Claim C2: for every copy session, exactly one terminal event
(Stop, Error, or OK) is emitted on the event channel, it is the last
event emitted before the channel closes, and no further event is
observable after it, on every exit path of the session; while the
session has not exited, no terminal event has been emitted. -/
theorem claim_C2_one_terminal (cfg : CpCfg) (sched : List Sel) (st : CpSt) :
    ((cpRun cfg sched st).closed = true →
      ∃ pre e, (cpRun cfg sched st).events = pre ++ [e] ∧ e.isTerminal = true ∧
        ∀ x ∈ pre, x.isTerminal = false) ∧
    ((cpRun cfg sched st).closed = false →
      ∀ x ∈ (cpRun cfg sched st).events, x.isTerminal = false) := by
  obtain ⟨h1, h2⟩ := cpRun_shape cfg sched st
  constructor
  · intro hc
    obtain ⟨pre, e, hev, hterm, hpre⟩ := h1 hc
    refine ⟨pre, e, hev, hterm, ?_⟩
    intro x hx
    obtain ⟨ew, rfl⟩ := hpre x hx
    rfl
  · intro hc x hx
    obtain ⟨ew, rfl⟩ := h2 hc x hx
    rfl

/-- Witness for C2 at a concrete session that exits: the event list is
some non-terminal events followed by exactly one terminal event. -/
theorem claim_C2_witness :
    ∃ pre e, (cpRun (Start false 10 0 0 "context canceled" (srcReadF 4 [7, 8])
        (fun _ => none)) [.read, .read] (initSt [])).events = pre ++ [e] ∧
      e.isTerminal = true ∧ ∀ x ∈ pre, x.isTerminal = false :=
  (claim_C2_one_terminal
    (Start false 10 0 0 "context canceled" (srcReadF 4 [7, 8]) (fun _ => none))
    [.read, .read] (initSt [])).1 (by decide)

/-- Claim C5 (implicit): Start ignores its isTotalKnown parameter; it
always launches the copy goroutine with isTotalKnown fixed to true, so
every EventWritten, EventStop and EventOK of the session reports
IsTotalKnown() = true even when the caller passed false (as the runner
Do does for a hash task whose total() is (false, 0)). -/
theorem claim_C5_start_ignores_totalKnown (isTotalKnown : Bool)
    (total prevCopied : Nat) (interval : Int) (ctxErr : String)
    (readF : Nat → ReadRes) (writeErrF : Nat → Option String)
    (s0 : List Nat) (sched : List Sel) :
    Start isTotalKnown total prevCopied interval ctxErr readF writeErrF =
      Start true total prevCopied interval ctxErr readF writeErrF ∧
    ∀ e ∈ (StartRun isTotalKnown total prevCopied interval ctxErr readF writeErrF
        s0 sched).events, ∀ ew, e.ewOf = some ew → ew.isTotalKnown = true := by
  refine ⟨rfl, ?_⟩
  intro e he ew hew
  exact (cpRun_fields
    (Start isTotalKnown total prevCopied interval ctxErr readF writeErrF)
    sched (initSt s0) e he ew hew).1

/-- Witness for C5: a session started with isTotalKnown = false whose
EventWritten nevertheless reports the flag as true. -/
theorem claim_C5_witness :
    Start false 2 0 1 "context canceled" (srcReadF 2 [4, 5]) (fun _ => none) =
      Start true 2 0 1 "context canceled" (srcReadF 2 [4, 5]) (fun _ => none) ∧
    EventWritten.isTotalKnown ⟨true, 2, 0, 2, false⟩ = true :=
  ⟨(claim_C5_start_ignores_totalKnown false 2 0 1 "context canceled"
      (srcReadF 2 [4, 5]) (fun _ => none) [] [.read, .tick, .read]).1,
   (claim_C5_start_ignores_totalKnown false 2 0 1 "context canceled"
      (srcReadF 2 [4, 5]) (fun _ => none) [] [.read, .tick, .read]).2
     (Event.written ⟨true, 2, 0, 2, false⟩) (by decide) ⟨true, 2, 0, 2, false⟩ rfl⟩

/-- Claim C6: ComputePercent returns exactly 100 whenever done is true,
even when total is 0; returns 0 when done is false and total is 0; and
otherwise divides (prevCopied + written) by (total / 100) in floating
point (the real-number value 100 * (prevCopied + written) / total); the
Percent carried by the EventOK of any session is always 100. -/
theorem claim_C6_percent (total prevCopied written : Nat) :
    ComputePercent total prevCopied written true = 100 ∧
    (total = 0 → ComputePercent total prevCopied written false = 0) ∧
    (total ≠ 0 → ComputePercent total prevCopied written false =
      Float.ofNat (prevCopied + written) / (Float.ofNat total / Float.ofNat 100)) ∧
    ∀ cfg sched st ew, Event.ok ew ∈ (cpRun cfg sched st).events →
      EventWritten.Percent ew = 100 := by
  refine ⟨rfl, ?_, ?_, ?_⟩
  · intro h
    simp [ComputePercent, h]
  · intro h
    simp [ComputePercent, h]
  · intro cfg sched st ew hmem
    have hdone : ew.done = true :=
      ((cpRun_fields cfg sched st (Event.ok ew) hmem ew rfl).2.2.2).mpr rfl
    unfold EventWritten.Percent
    rw [hdone]
    rfl

/-- Witness for C6: percent is 100 when done with total 0, percent is 0
when not done with total 0, and the EventOK of a concrete session
carries Percent 100. -/
theorem claim_C6_witness :
    ComputePercent 0 1 2 true = 100 ∧ ComputePercent 0 1 2 false = 0 ∧
      EventWritten.Percent ⟨true, 5, 0, 0, true⟩ = 100 :=
  ⟨(claim_C6_percent 0 1 2).1, (claim_C6_percent 0 1 2).2.1 rfl,
   (claim_C6_percent 5 0 0).2.2.2
     (Start true 5 0 0 "context canceled" (srcReadF 1 []) (fun _ => none))
     [.read] (initSt []) ⟨true, 5, 0, 0, true⟩ (by decide)⟩

/-- Claim C8: for every session whose sampling interval is zero or
negative, the sample timer never fires: no non-terminal Written event
is emitted, at most the single terminal event is sent, and the final
written value is carried only by that terminal event. -/
theorem claim_C8_interval_disabled (cfg : CpCfg) (sched : List Sel) (st : CpSt)
    (hint : cfg.interval ≤ 0) :
    (∀ e ∈ (cpRun cfg sched st).events, e.isTerminal = true) ∧
      (cpRun cfg sched st).events.length ≤ 1 ∧
      (∀ cause ew, Event.stop cause ew ∈ (cpRun cfg sched st).events →
          ew.written = (cpRun cfg sched st).st.written) ∧
      (∀ ew, Event.ok ew ∈ (cpRun cfg sched st).events →
          ew.written = (cpRun cfg sched st).st.written) := by
  obtain ⟨h1, h2⟩ := cpRun_noticker cfg sched st hint
  obtain ⟨h3, h4⟩ := cpRun_terminal_written cfg sched st
  exact ⟨h1, h2, h3, h4⟩

/-- Witness for C8: a concrete session with interval 0 and many tick
selections emits only its terminal event. -/
theorem claim_C8_witness :
    (∀ e ∈ (cpRun (Start true 2 0 0 "context canceled" (srcReadF 1 [4, 5])
        (fun _ => none)) [.tick, .read, .tick, .read, .tick, .read]
        (initSt [])).events, e.isTerminal = true) ∧
      (cpRun (Start true 2 0 0 "context canceled" (srcReadF 1 [4, 5])
        (fun _ => none)) [.tick, .read, .tick, .read, .tick, .read]
        (initSt [])).events.length ≤ 1 :=
  ⟨(claim_C8_interval_disabled
      (Start true 2 0 0 "context canceled" (srcReadF 1 [4, 5]) (fun _ => none))
      [.tick, .read, .tick, .read, .tick, .read] (initSt []) (by decide)).1,
   (claim_C8_interval_disabled
      (Start true 2 0 0 "context canceled" (srcReadF 1 [4, 5]) (fun _ => none))
      [.tick, .read, .tick, .read, .tick, .read] (initSt []) (by decide)).2.1⟩

/-- The Task interface of task/task.go as consumed by Do: Total() is
(isTotalKnown, total), Copied()/SetCopied read and write `copied`, and
MarshalJSON serializes the task, modelled as a function of `copied`
(the only field Do mutates) that may fail.  The Reader()/Writer()
resources are the session scripts handed to the copy engine. -/
structure TaskModel where
  copied : Nat
  isTotalKnown : Bool
  total : Nat
  marshal : Nat → Except String (List Nat)

/-- One callback invocation made by Do (task/task.go): OnWritten,
OnStop (with the snapshot bytes), OnOK, OnError. -/
inductive Callback where
  | onWritten (isTotalKnown : Bool) (total copied written : Nat) (percent : Float)
  | onStop (isTotalKnown : Bool) (total copied written : Nat) (percent : Float)
      (cause : String) (data : List Nat)
  | onOK (isTotalKnown : Bool) (total copied written : Nat) (percent : Float)
  | onError (err : String)

/-- Whether a callback invocation is an OnStop call. -/
def Callback.isOnStop : Callback → Bool
  | .onStop _ _ _ _ _ _ _ => true
  | _ => false

/-- One iteration of the event loop in Do (task/task.go, lines 64 to
123): EventWritten calls onWritten; EventStop sets the task copied to
ew.Copied(), then marshals the task, routing a marshal error to
onError and success to onStop with the snapshot bytes; EventOK sets
copied and calls onOK; EventError calls onError. -/
def processEvent1 (t : TaskModel) : Event → TaskModel × List Callback
  | .written ew =>
    (t, [.onWritten ew.isTotalKnown ew.total ew.Copied ew.written ew.Percent])
  | .stop cause ew =>
    let t1 := { t with copied := ew.Copied }
    match t1.marshal t1.copied with
    | .error err => (t1, [.onError err])
    | .ok data =>
      (t1, [.onStop ew.isTotalKnown ew.total ew.Copied ew.written ew.Percent cause data])
  | .ok ew =>
    let t1 := { t with copied := ew.Copied }
    (t1, [.onOK ew.isTotalKnown ew.total ew.Copied ew.written ew.Percent])
  | .error err => (t, [.onError err])

/-- The whole event loop of Do: fold processEvent1 over the events read
from the channel, collecting the callback invocations in order. -/
def processEvents (t : TaskModel) : List Event → TaskModel × List Callback
  | [] => (t, [])
  | e :: rest =>
    ((processEvents (processEvent1 t e).1 rest).1,
      (processEvent1 t e).2 ++ (processEvents (processEvent1 t e).1 rest).2)

/-- Do (task/task.go): extract Total() and Copied() from the task,
start one copy session via iocopy.Start with the fixed DefaultInterval,
and process its events.  (The deferred Close of the reader and writer
is resource cleanup outside this model.) -/
def DoRun (t : TaskModel) (ctxErr : String) (readF : Nat → ReadRes)
    (writeErrF : Nat → Option String) (s0 : List Nat) (sched : List Sel) :
    TaskModel × List Callback :=
  processEvents t
    (StartRun t.isTotalKnown t.total t.copied DefaultInterval ctxErr readF writeErrF
      s0 sched).events

/-- processEvents distributes over list append, threading the task
state left to right. -/
theorem processEvents_append (t : TaskModel) (l1 l2 : List Event) :
    processEvents t (l1 ++ l2) =
      ((processEvents (processEvents t l1).1 l2).1,
        (processEvents t l1).2 ++ (processEvents (processEvents t l1).1 l2).2) := by
  induction l1 generalizing t with
  | nil => simp [processEvents]
  | cons e rest ih => simp [processEvents, ih]

/-- Over EventWritten events only, the task state is unchanged and
every callback is an onWritten (in particular not an onStop). -/
theorem processEvents_written_only (t : TaskModel) (evs : List Event)
    (h : ∀ e ∈ evs, ∃ ew, e = Event.written ew) :
    (processEvents t evs).1 = t ∧
      ∀ cb ∈ (processEvents t evs).2, cb.isOnStop = false ∧
        ∀ err, cb ≠ Callback.onError err := by
  induction evs generalizing t with
  | nil => simp [processEvents]
  | cons e rest ih =>
    obtain ⟨ew, rfl⟩ := h e (List.mem_cons_self _ _)
    have h' : ∀ x ∈ rest, ∃ ew, x = Event.written ew := fun x hx =>
      h x (List.mem_cons_of_mem _ hx)
    obtain ⟨ih1, ih2⟩ := ih t h'
    constructor
    · show (processEvents t rest).1 = t
      exact ih1
    · intro cb hcb
      rcases List.mem_append.mp hcb with hcb | hcb
      · rw [List.mem_singleton.mp hcb]
        exact ⟨rfl, by intro err h2; cases h2⟩
      · exact ih2 cb hcb

/-- Processing a single EventStop updates the task copied to
ew.Copied() whether or not the marshal succeeds. -/
theorem processEvents_stop_fst (t : TaskModel) (cause : String) (ew : EventWritten) :
    (processEvents t [Event.stop cause ew]).1 = { t with copied := ew.Copied } := by
  show (processEvent1 t (Event.stop cause ew)).1 = _
  unfold processEvent1
  cases h : t.marshal ew.Copied <;> simp [h]

/-- Processing a single EventStop produces an onError callback when
the marshal fails and an onStop callback with the snapshot bytes when
it succeeds. -/
theorem processEvents_stop_snd (t : TaskModel) (cause : String) (ew : EventWritten) :
    (∀ msg, t.marshal ew.Copied = .error msg →
      (processEvents t [Event.stop cause ew]).2 = [Callback.onError msg]) ∧
    (∀ data, t.marshal ew.Copied = .ok data →
      (processEvents t [Event.stop cause ew]).2 =
        [Callback.onStop ew.isTotalKnown ew.total ew.Copied ew.written ew.Percent
          cause data]) := by
  constructor
  · intro msg hm
    show (processEvent1 t (Event.stop cause ew)).2 ++ [] = _
    unfold processEvent1
    simp [hm]
  · intro data hm
    show (processEvent1 t (Event.stop cause ew)).2 ++ [] = _
    unfold processEvent1
    simp [hm]

/-- Processing a single EventOK updates the task copied to ew.Copied(). -/
theorem processEvents_ok_fst (t : TaskModel) (ew : EventWritten) :
    (processEvents t [Event.ok ew]).1 = { t with copied := ew.Copied } := rfl

/-- Processing a single EventError leaves the task unchanged. -/
theorem processEvents_error_fst (t : TaskModel) (err : String) :
    (processEvents t [Event.error err]).1 = t := rfl

/-- In a session whose events end in a terminal event, all the events
before it are EventWritten events. -/
theorem session_pre_written (cfg : CpCfg) (sched : List Sel) (st : CpSt)
    (pre : List Event) (e : Event)
    (hev : (cpRun cfg sched st).events = pre ++ [e]) (hterm : e.isTerminal = true) :
    ∀ x ∈ pre, ∃ ew, x = Event.written ew := by
  obtain ⟨h1, h2⟩ := cpRun_shape cfg sched st
  cases hcl : (cpRun cfg sched st).closed with
  | false =>
    have he : e ∈ (cpRun cfg sched st).events := by
      rw [hev]
      exact List.mem_append_right _ (List.mem_singleton.mpr rfl)
    obtain ⟨ew, rfl⟩ := h2 hcl e he
    simp [Event.isTerminal] at hterm
  | true =>
    obtain ⟨pre', e', hev', hterm', hpre'⟩ := h1 hcl
    rw [hev] at hev'
    have hpre_eq : pre = pre' := by
      have h3 := congrArg List.dropLast hev'
      simpa [List.dropLast_concat] using h3
    rw [hpre_eq]
    exact hpre'

/-- Claim C3: for every task driven by the runner Do, after a session
ending in Stop or OK the task copied equals the copied value before
the session plus the written value carried by the terminal event, and
copied never decreases; after a session ending in Error, the task
copied is unchanged. -/
theorem claim_C3_copied_invariant (t : TaskModel) (ctxErr : String)
    (readF : Nat → ReadRes) (writeErrF : Nat → Option String)
    (s0 : List Nat) (sched : List Sel) :
    (∀ pre cause ew,
      (StartRun t.isTotalKnown t.total t.copied DefaultInterval ctxErr readF writeErrF
          s0 sched).events = pre ++ [Event.stop cause ew] →
        (DoRun t ctxErr readF writeErrF s0 sched).1.copied = t.copied + ew.written) ∧
    (∀ pre ew,
      (StartRun t.isTotalKnown t.total t.copied DefaultInterval ctxErr readF writeErrF
          s0 sched).events = pre ++ [Event.ok ew] →
        (DoRun t ctxErr readF writeErrF s0 sched).1.copied = t.copied + ew.written) ∧
    (∀ pre err,
      (StartRun t.isTotalKnown t.total t.copied DefaultInterval ctxErr readF writeErrF
          s0 sched).events = pre ++ [Event.error err] →
        (DoRun t ctxErr readF writeErrF s0 sched).1.copied = t.copied) ∧
    t.copied ≤ (DoRun t ctxErr readF writeErrF s0 sched).1.copied := by
  have hstop : ∀ pre cause ew,
      (StartRun t.isTotalKnown t.total t.copied DefaultInterval ctxErr readF writeErrF
          s0 sched).events = pre ++ [Event.stop cause ew] →
        (DoRun t ctxErr readF writeErrF s0 sched).1.copied = t.copied + ew.written := by
    intro pre cause ew hev
    have hpre := session_pre_written
      (Start t.isTotalKnown t.total t.copied DefaultInterval ctxErr readF writeErrF)
      sched (initSt s0) pre _ hev rfl
    have hmem : Event.stop cause ew ∈
        (StartRun t.isTotalKnown t.total t.copied DefaultInterval ctxErr readF writeErrF
          s0 sched).events := by
      rw [hev]
      exact List.mem_append_right _ (List.mem_singleton.mpr rfl)
    have hprev : ew.prevCopied = t.copied :=
      (cpRun_fields
        (Start t.isTotalKnown t.total t.copied DefaultInterval ctxErr readF writeErrF)
        sched (initSt s0) _ hmem ew rfl).2.2.1
    show (processEvents t
      (StartRun t.isTotalKnown t.total t.copied DefaultInterval ctxErr readF writeErrF
        s0 sched).events).1.copied = t.copied + ew.written
    rw [hev, processEvents_append, (processEvents_written_only t pre hpre).1]
    show (processEvents t [Event.stop cause ew]).1.copied = t.copied + ew.written
    rw [processEvents_stop_fst]
    show ew.prevCopied + ew.written = t.copied + ew.written
    rw [hprev]
  have hok : ∀ pre ew,
      (StartRun t.isTotalKnown t.total t.copied DefaultInterval ctxErr readF writeErrF
          s0 sched).events = pre ++ [Event.ok ew] →
        (DoRun t ctxErr readF writeErrF s0 sched).1.copied = t.copied + ew.written := by
    intro pre ew hev
    have hpre := session_pre_written
      (Start t.isTotalKnown t.total t.copied DefaultInterval ctxErr readF writeErrF)
      sched (initSt s0) pre _ hev rfl
    have hmem : Event.ok ew ∈
        (StartRun t.isTotalKnown t.total t.copied DefaultInterval ctxErr readF writeErrF
          s0 sched).events := by
      rw [hev]
      exact List.mem_append_right _ (List.mem_singleton.mpr rfl)
    have hprev : ew.prevCopied = t.copied :=
      (cpRun_fields
        (Start t.isTotalKnown t.total t.copied DefaultInterval ctxErr readF writeErrF)
        sched (initSt s0) _ hmem ew rfl).2.2.1
    show (processEvents t
      (StartRun t.isTotalKnown t.total t.copied DefaultInterval ctxErr readF writeErrF
        s0 sched).events).1.copied = t.copied + ew.written
    rw [hev, processEvents_append, (processEvents_written_only t pre hpre).1]
    show (processEvents t [Event.ok ew]).1.copied = t.copied + ew.written
    rw [processEvents_ok_fst]
    show ew.prevCopied + ew.written = t.copied + ew.written
    rw [hprev]
  have herr : ∀ pre err,
      (StartRun t.isTotalKnown t.total t.copied DefaultInterval ctxErr readF writeErrF
          s0 sched).events = pre ++ [Event.error err] →
        (DoRun t ctxErr readF writeErrF s0 sched).1.copied = t.copied := by
    intro pre err hev
    have hpre := session_pre_written
      (Start t.isTotalKnown t.total t.copied DefaultInterval ctxErr readF writeErrF)
      sched (initSt s0) pre _ hev rfl
    show (processEvents t
      (StartRun t.isTotalKnown t.total t.copied DefaultInterval ctxErr readF writeErrF
        s0 sched).events).1.copied = t.copied
    rw [hev, processEvents_append, (processEvents_written_only t pre hpre).1]
    show (processEvents t [Event.error err]).1.copied = t.copied
    rw [processEvents_error_fst]
  refine ⟨hstop, hok, herr, ?_⟩
  cases hcl : (StartRun t.isTotalKnown t.total t.copied DefaultInterval ctxErr readF
      writeErrF s0 sched).closed with
  | false =>
    have hall := (cpRun_shape
      (Start t.isTotalKnown t.total t.copied DefaultInterval ctxErr readF writeErrF)
      sched (initSt s0)).2 hcl
    have heq : (DoRun t ctxErr readF writeErrF s0 sched).1 = t :=
      (processEvents_written_only t _ hall).1
    rw [heq]
  | true =>
    obtain ⟨pre, e, hev, hterm, hpre⟩ := (cpRun_shape
      (Start t.isTotalKnown t.total t.copied DefaultInterval ctxErr readF writeErrF)
      sched (initSt s0)).1 hcl
    cases e with
    | written ew => simp [Event.isTerminal] at hterm
    | error err =>
      rw [herr pre err hev]
    | stop cause ew =>
      rw [hstop pre cause ew hev]
      exact Nat.le_add_right _ _
    | ok ew =>
      rw [hok pre ew hev]
      exact Nat.le_add_right _ _

/-- Witness for C3: a concrete Do run ending in OK advances copied by
the terminal written value. -/
theorem claim_C3_witness :
    (DoRun ⟨0, true, 2, fun _ => Except.ok []⟩ "context canceled" (srcReadF 2 [5, 6])
      (fun _ => none) [] [.read, .read]).1.copied = 0 + 2 :=
  (claim_C3_copied_invariant ⟨0, true, 2, fun _ => Except.ok []⟩ "context canceled"
    (srcReadF 2 [5, 6]) (fun _ => none) [] [.read, .read]).2.1
    [] ⟨true, 2, 0, 2, true⟩ (by decide)

/-- Claim C7: when a session ends with Stop, the runner Do first
updates the task copied (so the serialization sees the updated value
copied-before plus written), then serializes the task; on a
serialization failure Do calls onError with that error and never calls
onStop; on success Do calls onStop with the snapshot bytes, last. -/
theorem claim_C7_stop_snapshot (t : TaskModel) (ctxErr : String)
    (readF : Nat → ReadRes) (writeErrF : Nat → Option String)
    (s0 : List Nat) (sched : List Sel)
    (pre : List Event) (cause : String) (ew : EventWritten)
    (hev : (StartRun t.isTotalKnown t.total t.copied DefaultInterval ctxErr readF
        writeErrF s0 sched).events = pre ++ [Event.stop cause ew]) :
    (∀ msg, t.marshal (t.copied + ew.written) = Except.error msg →
      (∀ cb ∈ (DoRun t ctxErr readF writeErrF s0 sched).2, cb.isOnStop = false) ∧
      (DoRun t ctxErr readF writeErrF s0 sched).2.getLast? =
        some (Callback.onError msg)) ∧
    (∀ data, t.marshal (t.copied + ew.written) = Except.ok data →
      (DoRun t ctxErr readF writeErrF s0 sched).2.getLast? =
        some (Callback.onStop ew.isTotalKnown ew.total (t.copied + ew.written)
          ew.written ew.Percent cause data)) := by
  have hpre := session_pre_written
    (Start t.isTotalKnown t.total t.copied DefaultInterval ctxErr readF writeErrF)
    sched (initSt s0) pre _ hev rfl
  have hmem : Event.stop cause ew ∈
      (StartRun t.isTotalKnown t.total t.copied DefaultInterval ctxErr readF writeErrF
        s0 sched).events := by
    rw [hev]
    exact List.mem_append_right _ (List.mem_singleton.mpr rfl)
  have hprev : ew.prevCopied = t.copied :=
    (cpRun_fields
      (Start t.isTotalKnown t.total t.copied DefaultInterval ctxErr readF writeErrF)
      sched (initSt s0) _ hmem ew rfl).2.2.1
  have hcopied : ew.Copied = t.copied + ew.written := by
    show ew.prevCopied + ew.written = t.copied + ew.written
    rw [hprev]
  have hsnd : (DoRun t ctxErr readF writeErrF s0 sched).2 =
      (processEvents t pre).2 ++ (processEvents t [Event.stop cause ew]).2 := by
    show (processEvents t
      (StartRun t.isTotalKnown t.total t.copied DefaultInterval ctxErr readF writeErrF
        s0 sched).events).2 = _
    rw [hev, processEvents_append, (processEvents_written_only t pre hpre).1]
  constructor
  · intro msg hm
    have hm' : t.marshal ew.Copied = Except.error msg := by
      rw [hcopied]
      exact hm
    have hstop2 := (processEvents_stop_snd t cause ew).1 msg hm'
    constructor
    · intro cb hcb
      rw [hsnd, hstop2] at hcb
      rcases List.mem_append.mp hcb with hcb | hcb
      · exact ((processEvents_written_only t pre hpre).2 cb hcb).1
      · rw [List.mem_singleton.mp hcb]
        rfl
    · rw [hsnd, hstop2]
      exact List.getLast?_concat _
  · intro data hm
    have hm' : t.marshal ew.Copied = Except.ok data := by
      rw [hcopied]
      exact hm
    have hstop2 := (processEvents_stop_snd t cause ew).2 data hm'
    rw [hsnd, hstop2, ← hcopied]
    exact List.getLast?_concat _

/-- Witness for C7: a concrete stopped session with a failing marshal
routes to onError and never calls onStop; with a succeeding marshal it
ends with onStop carrying the snapshot bytes. -/
theorem claim_C7_witness :
    ((∀ cb ∈ (DoRun ⟨0, true, 5, fun _ => Except.error "m"⟩ "context canceled"
        (srcReadF 1 []) (fun _ => none) [] [.ctxDone]).2, cb.isOnStop = false) ∧
      (DoRun ⟨0, true, 5, fun _ => Except.error "m"⟩ "context canceled"
        (srcReadF 1 []) (fun _ => none) [] [.ctxDone]).2.getLast? =
        some (Callback.onError "m")) ∧
    (DoRun ⟨0, true, 5, fun _ => Except.ok [1]⟩ "context canceled"
        (srcReadF 1 []) (fun _ => none) [] [.ctxDone]).2.getLast? =
      some (Callback.onStop true 5 (0 + 0) 0
        (EventWritten.Percent ⟨true, 5, 0, 0, false⟩) "context canceled" [1]) :=
  ⟨(claim_C7_stop_snapshot ⟨0, true, 5, fun _ => Except.error "m"⟩ "context canceled"
      (srcReadF 1 []) (fun _ => none) [] [.ctxDone] [] "context canceled"
      ⟨true, 5, 0, 0, false⟩ (by decide)).1 "m" rfl,
   (claim_C7_stop_snapshot ⟨0, true, 5, fun _ => Except.ok [1]⟩ "context canceled"
      (srcReadF 1 []) (fun _ => none) [] [.ctxDone] [] "context canceled"
      ⟨true, 5, 0, 0, false⟩ (by decide)).2 [1] rfl⟩

/-- CopyFileTask of copyfile.go: the snapshot fields dst, src, size,
copied. -/
structure CopyFileTask where
  Dst : String
  Src : String
  Size : Nat
  Copied : Nat
deriving DecidableEq

/-- CopyFileTask.total (copyfile.go lines 25 to 27): always
(true, t.Size), from the stored size. -/
def CopyFileTask.total (t : CopyFileTask) : Bool × Nat :=
  (true, t.Size)

namespace Copyfile

/-- Task of the copyfile package (the second section of task/task.go):
snapshot fields dst, src, copied; it stores no size. -/
structure Task where
  Dst : String
  Src : String
  NumCopied : Nat
deriving DecidableEq

/-- Task.Total of the copyfile package (task/task.go lines 144 to 151):
os.Lstat the source on every call; on a stat error return (false, 0),
else (true, size).  The file system is modelled as a map from path to
file size, none when Lstat fails. -/
def Task.Total (fs : String → Option Nat) (t : Task) : Bool × Nat :=
  match fs t.Src with
  | none => (false, 0)
  | some size => (true, size)

end Copyfile

/-- Counterexample to C9 as stated: the copyfile package variant
Task.Total does not always report isTotalKnown = true; when Lstat
fails on the source (here a file system with no files at all), it
returns (false, 0). -/
theorem claim_C9_counterexample :
    (Copyfile.Task.Total (fun _ => none) ⟨"dst", "src", 0⟩).1 = false := rfl

/-- Claim C9 amended: CopyFileTask.total always returns isTotalKnown =
true; the copyfile package variant Task.Total returns isTotalKnown =
true with the stat size whenever Lstat succeeds on the source, and
returns (false, 0) when Lstat fails. -/
theorem claim_C9_total_known :
    (∀ t : CopyFileTask, (CopyFileTask.total t).1 = true) ∧
    (∀ (fs : String → Option Nat) (t : Copyfile.Task) (size : Nat),
      fs t.Src = some size → Copyfile.Task.Total fs t = (true, size)) ∧
    (∀ (fs : String → Option Nat) (t : Copyfile.Task),
      fs t.Src = none → Copyfile.Task.Total fs t = (false, 0)) := by
  refine ⟨fun t => rfl, ?_, ?_⟩
  · intro fs t size h
    simp [Copyfile.Task.Total, h]
  · intro fs t h
    simp [Copyfile.Task.Total, h]

/-- Witness for the amended C9 at concrete tasks and file systems. -/
theorem claim_C9_witness :
    (CopyFileTask.total ⟨"d", "s", 7, 0⟩).1 = true ∧
    Copyfile.Task.Total (fun _ => some 7) ⟨"d", "s", 0⟩ = (true, 7) ∧
    Copyfile.Task.Total (fun _ => none) ⟨"d", "s", 0⟩ = (false, 0) :=
  ⟨claim_C9_total_known.1 ⟨"d", "s", 7, 0⟩,
   claim_C9_total_known.2.1 (fun _ => some 7) ⟨"d", "s", 0⟩ 7 rfl,
   claim_C9_total_known.2.2 (fun _ => none) ⟨"d", "s", 0⟩ rfl⟩

/-- DownloadTask: the snapshot fields dst, url, is_size_known, size,
is_range_supported, downloaded. -/
structure DownloadTask where
  Dst : String
  Url : String
  IsSizeKnown : Bool
  Size : Nat
  IsRangeSupported : Bool
  Downloaded : Nat
deriving DecidableEq

/-- The externally observable actions DownloadTask.UnmarshalJSON
performs while loading a snapshot, in order. -/
inductive DlEffect where
  | createDir (dir : String)
  | openAppend (path : String)
  | getResp (url : String)
  | getRespOfRangeStart (url : String) (start : Nat)
  | seek (path : String) (offset : Nat)
deriving DecidableEq

/-- The collaborators DownloadTask.UnmarshalJSON consumes (pathelper,
os.OpenFile, httputil, Seek), each allowed to fail.  getResp returns
(isSizeKnown, size, isRangeSupported) of a plain GET;
getRespOfRangeStart returns the remaining size of a ranged GET. -/
structure DlEnv where
  pathDir : String → String
  createDirOk : String → Bool
  openAppendOk : String → Bool
  getResp : String → Option (Bool × Nat × Bool)
  getRespOfRangeStart : String → Nat → Option Nat
  seekOk : String → Nat → Bool

/-- Result of a successful snapshot load: the reconstructed task, the
actions taken in order, the destination file offset the next write
goes to and the offset in the remote resource at which the response
body starts. -/
structure DlLoaded where
  task : DownloadTask
  effects : List DlEffect
  wOffset : Nat
  rStart : Nat
deriving DecidableEq

/-- DownloadTask.UnmarshalJSON after the JSON decode (JSON mechanics
are out of scope per the spec): create the destination directory if
needed, open the destination with O_APPEND, then: if range support was
not recorded, re-issue the plain GET, refresh IsSizeKnown, Size and
IsRangeSupported from the response and reset Downloaded to 0; if range
support was recorded, issue a ranged GET starting at Downloaded and
seek the destination file to Downloaded. -/
def DownloadTask.unmarshalLoad (env : DlEnv) (t : DownloadTask) :
    Except String DlLoaded :=
  let dir := env.pathDir t.Dst
  if env.createDirOk dir = false then
    .error "create dir failed"
  else if env.openAppendOk t.Dst = false then
    .error "open file failed"
  else if t.IsRangeSupported = false then
    match env.getResp t.Url with
    | none => .error "http get failed"
    | some (isSizeKnown, size, isRangeSupported) =>
      .ok ⟨{ t with
              IsSizeKnown := isSizeKnown
              Size := size
              IsRangeSupported := isRangeSupported
              Downloaded := 0 },
        [.createDir dir, .openAppend t.Dst, .getResp t.Url], 0, 0⟩
  else
    match env.getRespOfRangeStart t.Url t.Downloaded with
    | none => .error "ranged http get failed"
    | some _ =>
      if env.seekOk t.Dst t.Downloaded = false then
        .error "seek failed"
      else
        .ok ⟨t,
          [.createDir dir, .openAppend t.Dst,
            .getRespOfRangeStart t.Url t.Downloaded, .seek t.Dst t.Downloaded],
          t.Downloaded, t.Downloaded⟩

/-- Claim C4: loading a Download task snapshot reopens the destination
file in append mode; when the range-support flag is true it issues a
ranged GET starting at copied and seeks the destination to copied, so
the next byte read and written is at offset copied; when the flag is
false it re-issues a plain GET and resets copied to 0. -/
theorem claim_C4_download_load (env : DlEnv) (t : DownloadTask) (res : DlLoaded)
    (h : DownloadTask.unmarshalLoad env t = .ok res) :
    DlEffect.openAppend t.Dst ∈ res.effects ∧
    (t.IsRangeSupported = true →
      res.effects = [.createDir (env.pathDir t.Dst), .openAppend t.Dst,
          .getRespOfRangeStart t.Url t.Downloaded, .seek t.Dst t.Downloaded] ∧
        res.task = t ∧ res.wOffset = t.Downloaded ∧ res.rStart = t.Downloaded) ∧
    (t.IsRangeSupported = false →
      res.effects = [.createDir (env.pathDir t.Dst), .openAppend t.Dst,
          .getResp t.Url] ∧
        res.task.Downloaded = 0 ∧ res.wOffset = 0 ∧ res.rStart = 0) := by
  unfold DownloadTask.unmarshalLoad at h
  cases hcd : env.createDirOk (env.pathDir t.Dst) with
  | false => simp [hcd] at h
  | true =>
    cases hoa : env.openAppendOk t.Dst with
    | false => simp [hcd, hoa] at h
    | true =>
      cases hrs : t.IsRangeSupported with
      | false =>
        cases hg : env.getResp t.Url with
        | none => simp [hcd, hoa, hrs, hg] at h
        | some trip =>
          obtain ⟨isSizeKnown, size, isRangeSupported⟩ := trip
          simp only [hcd, hoa, hrs, hg] at h
          simp at h
          subst h
          refine ⟨by simp, ?_, ?_⟩
          · intro h2
            cases h2
          · intro _
            exact ⟨rfl, rfl, rfl, rfl⟩
      | true =>
        cases hg : env.getRespOfRangeStart t.Url t.Downloaded with
        | none => simp [hcd, hoa, hrs, hg] at h
        | some rem =>
          cases hsk : env.seekOk t.Dst t.Downloaded with
          | false => simp [hcd, hoa, hrs, hg, hsk] at h
          | true =>
            simp only [hcd, hoa, hrs, hg, hsk] at h
            simp at h
            subst h
            refine ⟨by simp, ?_, ?_⟩
            · intro _
              exact ⟨rfl, rfl, rfl, rfl⟩
            · intro h2
              cases h2

/-- Witness for C4: a concrete environment where every collaborator
succeeds, applied to a snapshot with range support and 40 bytes
downloaded, and to a snapshot without range support. -/
theorem claim_C4_witness :
    DlEffect.openAppend "f" ∈
      [DlEffect.createDir "dir", DlEffect.openAppend "f",
        DlEffect.getRespOfRangeStart "u" 40, DlEffect.seek "f" 40] ∧
    DlEffect.openAppend "f" ∈
      [DlEffect.createDir "dir", DlEffect.openAppend "f", DlEffect.getResp "u"] ∧
    DownloadTask.Downloaded ⟨"f", "u", true, 100, false, 0⟩ = 0 :=
  ⟨(claim_C4_download_load
      ⟨fun _ => "dir", fun _ => true, fun _ => true,
        fun _ => some (true, 100, false), fun _ _ => some 60, fun _ _ => true⟩
      ⟨"f", "u", true, 100, true, 40⟩
      ⟨⟨"f", "u", true, 100, true, 40⟩,
        [DlEffect.createDir "dir", DlEffect.openAppend "f",
          DlEffect.getRespOfRangeStart "u" 40, DlEffect.seek "f" 40], 40, 40⟩
      rfl).1,
   (claim_C4_download_load
      ⟨fun _ => "dir", fun _ => true, fun _ => true,
        fun _ => some (true, 100, false), fun _ _ => some 60, fun _ _ => true⟩
      ⟨"f", "u", true, 100, false, 40⟩
      ⟨⟨"f", "u", true, 100, false, 0⟩,
        [DlEffect.createDir "dir", DlEffect.openAppend "f", DlEffect.getResp "u"],
        0, 0⟩
      rfl).1,
   ((claim_C4_download_load
      ⟨fun _ => "dir", fun _ => true, fun _ => true,
        fun _ => some (true, 100, false), fun _ _ => some 60, fun _ _ => true⟩
      ⟨"f", "u", true, 100, false, 40⟩
      ⟨⟨"f", "u", true, 100, false, 0⟩,
        [DlEffect.createDir "dir", DlEffect.openAppend "f", DlEffect.getResp "u"],
        0, 0⟩
      rfl).2.2 rfl).2.1⟩

/-- The accumulator constructors held by hashAlgsToNewFuncs,
abstracting md5.New, sha1.New, sha256.New, sha512.New, crc32NewIEEE. -/
inductive HashKind where
  | md5
  | sha1
  | sha256
  | sha512
  | crc32
deriving DecidableEq

/-- hashAlgsToNewFuncs: the fixed supported algorithm set, as the
lookup the construction loop performs. -/
def hashAlgsToNewFuncs (alg : String) : Option HashKind :=
  if alg = "MD5" then some .md5
  else if alg = "SHA-1" then some .sha1
  else if alg = "SHA-256" then some .sha256
  else if alg = "SHA-512" then some .sha512
  else if alg = "CRC-32" then some .crc32
  else none

/-- ErrUnSupportedHashAlg. -/
def ErrUnSupportedHashAlg : String := "unsupported hash algorithm"

/-- SupportedHashAlgs: the supported algorithm names sorted by name. -/
def SupportedHashAlgs : List String :=
  ["CRC-32", "MD5", "SHA-1", "SHA-256", "SHA-512"]

/-- Go map insert on the hashes map: replace the value under an
existing key, else add a new entry. -/
def mapInsert (m : List (String × HashKind)) (k : String) (v : HashKind) :
    List (String × HashKind) :=
  if m.any (fun p => p.1 = k) then
    m.map (fun p => if p.1 = k then (k, v) else p)
  else
    m ++ [(k, v)]

/-- The construction loop of NewHashTask: look each requested name up
in hashAlgsToNewFuncs, failing on the first unsupported one, and
instantiate the accumulator into the hashes map. -/
def buildHashes : List String → List (String × HashKind) →
    Option (List (String × HashKind))
  | [], m => some m
  | alg :: rest, m =>
    match hashAlgsToNewFuncs alg with
    | none => none
    | some k => buildHashes rest (mapInsert m alg k)

/-- HashTask: the requested algorithm names, the byte count, and the
hashes map of instantiated accumulators.  (The States map and the
io.Reader are session resources outside claim C10.) -/
structure HashTask where
  Algs : List String
  Computed : Nat
  hashes : List (String × HashKind)
deriving DecidableEq

/-- HashTask.total: always (false, 0) - the total is never known for a
hash task. -/
def HashTask.total (_ : HashTask) : Bool × Nat :=
  (false, 0)

/-- NewHashTask: nil algs defaults to all supported algorithms; any
unsupported requested name yields ErrUnSupportedHashAlg; otherwise the
task holds the requested names and the instantiated hashes map. -/
def NewHashTask (algs : Option (List String)) : Except String HashTask :=
  let algs2 := match algs with
    | none => SupportedHashAlgs
    | some l => l
  match buildHashes algs2 [] with
  | none => .error ErrUnSupportedHashAlg
  | some m => .ok ⟨algs2, 0, m⟩

/-- Number of entries the hashes map holds under a key. -/
def keyCount : List (String × HashKind) → String → Nat
  | [], _ => 0
  | p :: m, k => (if p.1 = k then 1 else 0) + keyCount m k

/-- Replacing the value under key k does not change any key count. -/
theorem keyCount_map_replace (m : List (String × HashKind)) (k : String)
    (v : HashKind) (j : String) :
    keyCount (m.map (fun p => if p.1 = k then (k, v) else p)) j = keyCount m j := by
  induction m with
  | nil => rfl
  | cons p rest ih =>
    by_cases hp : p.1 = k
    · simp [List.map_cons, keyCount, ih, hp]
    · simp [List.map_cons, keyCount, ih, hp]

/-- Appending a single entry adds one to its key count. -/
theorem keyCount_append_single (m : List (String × HashKind)) (j : String)
    (v : HashKind) (k : String) :
    keyCount (m ++ [(j, v)]) k = keyCount m k + (if j = k then 1 else 0) := by
  induction m with
  | nil =>
    simp only [List.nil_append, keyCount]
    omega
  | cons p rest ih =>
    simp only [List.cons_append, keyCount, List.append_eq]
    rw [ih]
    omega

/-- Key presence in the any test matches a nonzero key count. -/
theorem any_key_iff_keyCount (m : List (String × HashKind)) (k : String) :
    (m.any (fun p => p.1 = k)) = true ↔ keyCount m k ≠ 0 := by
  induction m with
  | nil => simp [keyCount]
  | cons p rest ih =>
    by_cases hp : p.1 = k
    · simp [keyCount, hp]
    · simp [keyCount, hp, ih]

/-- Inserting under key k leaves exactly one entry under k, provided
the map held at most one. -/
theorem keyCount_mapInsert_self (m : List (String × HashKind)) (k : String)
    (v : HashKind) (hle : keyCount m k ≤ 1) :
    keyCount (mapInsert m k v) k = 1 := by
  unfold mapInsert
  by_cases hany : m.any (fun p => p.1 = k) = true
  · rw [if_pos hany, keyCount_map_replace]
    have := (any_key_iff_keyCount m k).mp hany
    omega
  · rw [if_neg hany, keyCount_append_single]
    have h0 : keyCount m k = 0 := by
      by_contra h
      exact hany ((any_key_iff_keyCount m k).mpr h)
    simp [h0]

/-- Inserting under key k does not change the count of other keys. -/
theorem keyCount_mapInsert_other (m : List (String × HashKind)) (k : String)
    (v : HashKind) (j : String) (hne : j ≠ k) :
    keyCount (mapInsert m k v) j = keyCount m j := by
  unfold mapInsert
  by_cases hany : m.any (fun p => p.1 = k) = true
  · rw [if_pos hany, keyCount_map_replace]
  · rw [if_neg hany, keyCount_append_single]
    have hkj : ¬(k = j) := fun hh => hne hh.symm
    simp [hkj]

/-- mapInsert preserves the at-most-one-entry-per-key invariant. -/
theorem keyCount_mapInsert_le (m : List (String × HashKind)) (k : String)
    (v : HashKind) (hinv : ∀ a, keyCount m a ≤ 1) :
    ∀ a, keyCount (mapInsert m k v) a ≤ 1 := by
  intro a
  by_cases ha : a = k
  · subst ha
    rw [keyCount_mapInsert_self m a v (hinv a)]
  · rw [keyCount_mapInsert_other m k v a ha]
    exact hinv a

/-- A successful construction loop leaves exactly one entry per
requested name and the other counts unchanged. -/
theorem buildHashes_some_spec (algs : List String) :
    ∀ m0, (∀ a, keyCount m0 a ≤ 1) → ∀ m, buildHashes algs m0 = some m →
      (∀ a, keyCount m a ≤ 1) ∧
      ∀ a, keyCount m a = if a ∈ algs then 1 else keyCount m0 a := by
  induction algs with
  | nil =>
    intro m0 hinv m hm
    simp only [buildHashes, Option.some.injEq] at hm
    subst hm
    exact ⟨hinv, fun a => by simp⟩
  | cons alg rest ih =>
    intro m0 hinv m hm
    cases hl : hashAlgsToNewFuncs alg with
    | none => simp [buildHashes, hl] at hm
    | some k =>
      simp only [buildHashes, hl] at hm
      obtain ⟨hinv', hcount⟩ :=
        ih (mapInsert m0 alg k) (keyCount_mapInsert_le m0 alg k hinv) m hm
      refine ⟨hinv', ?_⟩
      intro a
      rw [hcount a]
      by_cases hmem : a ∈ rest
      · simp [hmem, List.mem_cons]
      · by_cases ha : a = alg
        · subst ha
          simp [hmem, List.mem_cons, keyCount_mapInsert_self m0 a k (hinv a)]
        · simp [hmem, ha, List.mem_cons, keyCount_mapInsert_other m0 alg k a ha]

/-- The construction loop fails when any requested name is
unsupported. -/
theorem buildHashes_none (algs : List String) :
    ∀ m0, (∃ a ∈ algs, hashAlgsToNewFuncs a = none) → buildHashes algs m0 = none := by
  induction algs with
  | nil =>
    rintro m0 ⟨a, ha, hnone⟩
    simp at ha
  | cons alg rest ih =>
    rintro m0 ⟨a, ha, hnone⟩
    rcases List.mem_cons.mp ha with rfl | ha2
    · simp [buildHashes, hnone]
    · cases hl : hashAlgsToNewFuncs alg with
      | none => simp [buildHashes, hl]
      | some k =>
        simp only [buildHashes, hl]
        exact ih _ ⟨a, ha2, hnone⟩

/-- The construction loop succeeds when every requested name is
supported. -/
theorem buildHashes_isSome (algs : List String) :
    ∀ m0, (∀ a ∈ algs, hashAlgsToNewFuncs a ≠ none) →
      ∃ m, buildHashes algs m0 = some m := by
  induction algs with
  | nil =>
    intro m0 _
    exact ⟨m0, rfl⟩
  | cons alg rest ih =>
    intro m0 hall
    cases hl : hashAlgsToNewFuncs alg with
    | none => exact absurd hl (hall alg (List.mem_cons_self _ _))
    | some k =>
      obtain ⟨m, hm⟩ :=
        ih (mapInsert m0 alg k) (fun a ha => hall a (List.mem_cons_of_mem _ ha))
      exact ⟨m, by simp [buildHashes, hl, hm]⟩

/-- A name is in SupportedHashAlgs exactly when hashAlgsToNewFuncs
holds a constructor for it. -/
theorem mem_supportedHashAlgs_iff (a : String) :
    a ∈ SupportedHashAlgs ↔ hashAlgsToNewFuncs a ≠ none := by
  constructor
  · intro h
    simp only [SupportedHashAlgs, List.mem_cons, List.not_mem_nil, or_false] at h
    rcases h with rfl | rfl | rfl | rfl | rfl <;> decide
  · intro h
    by_contra hmem
    simp only [SupportedHashAlgs, List.mem_cons, List.not_mem_nil, or_false] at hmem
    push_neg at hmem
    obtain ⟨h1, h2, h3, h4, h5⟩ := hmem
    apply h
    simp [hashAlgsToNewFuncs, h1, h2, h3, h4, h5]

/-- Claim C10: for every list of requested algorithm names, NewHashTask
fails with ErrUnSupportedHashAlg if any name is outside the fixed
supported set (MD5, SHA-1, SHA-256, SHA-512, CRC-32), and otherwise
succeeds and instantiates exactly one hash accumulator per requested
algorithm (and none for any other name). -/
theorem claim_C10_newHashTask (algs : List String) :
    ((∃ a ∈ algs, a ∉ SupportedHashAlgs) →
      NewHashTask (some algs) = .error ErrUnSupportedHashAlg) ∧
    ((∀ a ∈ algs, a ∈ SupportedHashAlgs) →
      ∃ t, NewHashTask (some algs) = .ok t ∧ t.Algs = algs ∧
        (∀ a ∈ algs, keyCount t.hashes a = 1) ∧
        (∀ a, a ∉ algs → keyCount t.hashes a = 0)) := by
  constructor
  · rintro ⟨a, ha, hmem⟩
    have hnone : hashAlgsToNewFuncs a = none := by
      by_contra h
      exact hmem ((mem_supportedHashAlgs_iff a).mpr h)
    have hb := buildHashes_none algs [] ⟨a, ha, hnone⟩
    unfold NewHashTask
    simp [hb]
  · intro hall
    have hall' : ∀ a ∈ algs, hashAlgsToNewFuncs a ≠ none := fun a ha =>
      (mem_supportedHashAlgs_iff a).mp (hall a ha)
    obtain ⟨m, hm⟩ := buildHashes_isSome algs [] hall'
    obtain ⟨hinv, hcount⟩ :=
      buildHashes_some_spec algs [] (fun a => by simp [keyCount]) m hm
    refine ⟨⟨algs, 0, m⟩, ?_, rfl, ?_, ?_⟩
    · unfold NewHashTask
      simp [hm]
    · intro a ha
      rw [hcount a]
      simp [ha]
    · intro a ha
      rw [hcount a]
      simp [ha, keyCount]

/-- Witness for C10: one list with an unsupported name fails with
ErrUnSupportedHashAlg; one fully supported list succeeds with one
accumulator per name. -/
theorem claim_C10_witness :
    NewHashTask (some ["MD5", "FOO"]) = .error ErrUnSupportedHashAlg ∧
    ∃ t, NewHashTask (some ["MD5", "SHA-256"]) = .ok t ∧
      t.Algs = ["MD5", "SHA-256"] ∧
      (∀ a ∈ ["MD5", "SHA-256"], keyCount t.hashes a = 1) ∧
      (∀ a, a ∉ (["MD5", "SHA-256"] : List String) → keyCount t.hashes a = 0) :=
  ⟨(claim_C10_newHashTask ["MD5", "FOO"]).1 ⟨"FOO", by decide, by decide⟩,
   (claim_C10_newHashTask ["MD5", "SHA-256"]).2 (by decide)⟩
